import Mathlib

/-!
Verification of the core of `project_to_xml` (file `project_to_xml/analyzer.py`):
a two-pass directory traversal with a dual-tier exclusion policy, followed by
CDATA serialization of file contents.  Python strings are modelled as Lean
`String` (a sequence of code points); the string primitives used by the source
(`startswith`, `endswith`, `in`, `replace`, `os.path.basename`, `os.path.join`)
are modelled explicitly on `List Char` so that every definition computes in the
kernel.  The filesystem is modelled as an in-memory tree: directory listing
order is arbitrary in the tree and the code sorts it, permission failures are a
flag on directories, and read/decode failures are recorded per file.
-/

namespace ProjectToXml

/-- `startsWithL p l` decides whether `p` is an initial segment of `l`
(model of Python `str.startswith` at the code-point level). -/
def startsWithL : List Char → List Char → Bool
  | [], _ => true
  | _ :: _, [] => false
  | p :: ps, c :: cs => p == c && startsWithL ps cs

/-- Model of Python `str.endswith` at the code-point level. -/
def endsWithL (s suff : List Char) : Bool :=
  startsWithL suff.reverse s.reverse

/-- Model of Python's substring test `pat in s` (for nonempty `pat`). -/
def containsL (pat : List Char) : List Char → Bool
  | [] => pat.isEmpty
  | c :: rest => startsWithL pat (c :: rest) || containsL pat rest

/-- Worker for `replaceL`, structurally recursive on a fuel argument so
that it computes in the kernel; with `fuel ≥ l.length` and a nonempty
pattern the fuel never runs out. -/
def replaceFuel (pat rep : List Char) : Nat → List Char → List Char
  | _, [] => []
  | 0, l => l
  | f + 1, c :: rest =>
    if startsWithL pat (c :: rest) then
      rep ++ replaceFuel pat rep f ((c :: rest).drop pat.length)
    else
      c :: replaceFuel pat rep f rest

/-- Model of Python `str.replace` for a nonempty pattern: replaces
leftmost non-overlapping occurrences of `pat` by `rep`. -/
def replaceL (pat rep l : List Char) : List Char :=
  replaceFuel pat rep l.length l

/-- Model of `os.path.basename` (POSIX): the part of the path after the
last separator. -/
def basenameChars (acc : List Char) : List Char → List Char
  | [] => acc
  | c :: rest =>
    if c = '/' then basenameChars [] rest else basenameChars (acc ++ [c]) rest

/-- `os.path.basename` on strings. -/
def basename (p : String) : String :=
  ⟨basenameChars [] p.data⟩

/-- Model of `os.path.join path item` as used by the traversal, expressed on
root-relative paths: at the root the relative path of a child is its name,
deeper down it is `rel ++ "/" ++ name` (this is exactly what
`os.path.relpath(os.path.join(...), folder_path)` yields for the walked tree). -/
def pyJoin (rel item : String) : String :=
  if rel = "" then item else rel ++ "/" ++ item

/-- The resolved configuration: two exclusion tiers, each holding folder
names and file patterns (source: `self.config` with keys `full_excludes`
and `content_excludes`, each with `folders` and `files`). -/
structure Config where
  full_excludes_folders : List String
  full_excludes_files : List String
  content_excludes_folders : List String
  content_excludes_files : List String

/-- The built-in default configuration (source: `self.default_config`). -/
def default_config : Config :=
  { full_excludes_folders :=
      [".git", "node_modules", "__pycache__", ".venv", "venv", "env",
       ".idea", ".vscode", "dist", "build", "eggs", ".eggs",
       ".pytest_cache", ".mypy_cache", ".coverage", ".tox"]
    full_excludes_files :=
      [".DS_Store", "*.pyc", "*.pyo", "*.pyd", "*.so", "*.dylib", "*.dll",
       ".gitignore", ".coverage", ".python-version"]
    content_excludes_folders := ["migrations", "static", "media"]
    content_excludes_files :=
      ["__init__.py", "*.log", "*.pkl", "*.pdf", "*.jpg", "*.png", "*.svg",
       "*.sqlite3", "*.db", "*.csv", "*.json", "*.xml", "*.yaml", "*.yml",
       "*.env", "*.lock", "requirements.txt"] }

/-- Source `matches_patterns` (inner helper of `should_exclude`): a pattern
starting with `*` matches by suffix on the remainder, any other pattern by
exact equality; the first matching pattern wins. -/
def matches_patterns (filename : String) (patterns : List String) : Bool :=
  patterns.any fun pattern =>
    match pattern.data with
    | '*' :: suffChars => endsWithL filename.data suffChars
    | _ => filename == pattern

/-- Source `should_exclude(path, content_only)`.  The source consults
`os.path.isdir(path)`; that filesystem answer is the explicit `isDir`
argument here.  `content_only = false` is the structure tier,
`content_only = true` the content tier. -/
def should_exclude (cfg : Config) (isDir : Bool) (path : String)
    (content_only : Bool) : Bool :=
  let name := basename path
  if isDir then
    if content_only then
      cfg.full_excludes_folders.contains name
        || cfg.content_excludes_folders.contains name
    else
      cfg.full_excludes_folders.contains name
  else
    if content_only then
      matches_patterns name cfg.full_excludes_files
        || matches_patterns name cfg.content_excludes_files
    else
      matches_patterns name cfg.full_excludes_files

/-- In-memory model of a directory entry as seen by the traversal:
a regular file (whose later read yields text or raises, modelled by
`Except`), a directory (with a `readable` flag: `false` models
`PermissionError` on `os.listdir`), or an entry that is neither a regular
file nor a directory (e.g. a broken symlink): `os.path.isfile` and
`os.path.isdir` both answer `false` for it. -/
inductive FSEntry where
  | file (name : String) (data : Except String String)
  | dir (name : String) (readable : Bool) (children : List FSEntry)
  | other (name : String)

/-- The entry's name, as returned by `os.listdir`. -/
def entryName : FSEntry → String
  | .file n _ => n
  | .dir n _ _ => n
  | .other n => n

/-- The answer `os.path.isdir` gives for the entry. -/
def entryIsDir : FSEntry → Bool
  | .dir _ _ _ => true
  | _ => false

/-- Nodes of the emitted XML tree under `structure` / `contents`:
`dir` elements with a `name` attribute and children, and `file` elements
with `name` and root-relative `path` attributes. -/
inductive XmlNode where
  | dir (name : String) (children : List XmlNode)
  | file (name : String) (path : String)

/-- Python's string `<=`: lexicographic comparison by code point. -/
def lexLeL : List Char → List Char → Bool
  | [], _ => true
  | _ :: _, [] => false
  | a :: as, b :: bs => if a = b then lexLeL as bs else decide (a < b)

/-- The comparison `sorted` uses on listing entries: by name. -/
def entryLe (a b : FSEntry) : Bool :=
  lexLeL (entryName a).data (entryName b).data

/-- Insertion step of the stable ascending sort. -/
def insertEntry (e : FSEntry) : List FSEntry → List FSEntry
  | [] => [e]
  | b :: l => if entryLe e b then e :: b :: l else b :: insertEntry e l

/-- Model of Python `sorted(os.listdir(path))`: the listing stably
sorted in ascending lexicographic order of names (CPython's `sorted`
is a stable ascending sort under exactly this comparison). -/
def sortEntries : List FSEntry → List FSEntry
  | [] => []
  | b :: l => insertEntry b (sortEntries l)

/-- The sorting relation, as a `Prop` relation for the `Mathlib`
sorting lemmas. -/
def entryLeR (a b : FSEntry) : Prop := entryLe a b = true

instance : DecidableRel entryLeR := fun a b =>
  inferInstanceAs (Decidable (entryLe a b = true))

theorem insertEntry_eq (e : FSEntry) (l : List FSEntry) :
    insertEntry e l = l.orderedInsert entryLeR e := by
  induction l with
  | nil => rfl
  | cons b l ih =>
    simp only [insertEntry, List.orderedInsert, ih]
    by_cases h : entryLeR e b
    · rw [if_pos h, if_pos]; exact h
    · rw [if_neg h, if_neg]; exact h

theorem sortEntries_eq (l : List FSEntry) :
    sortEntries l = l.insertionSort entryLeR := by
  induction l with
  | nil => rfl
  | cons b l ih => simp only [sortEntries, List.insertionSort, ih, insertEntry_eq]

theorem sortEntries_perm (l : List FSEntry) : List.Perm (sortEntries l) l := by
  rw [sortEntries_eq]; exact l.perm_insertionSort entryLeR

theorem sizeOf_sortEntries (l : List FSEntry) :
    sizeOf (sortEntries l) = sizeOf l :=
  (sortEntries_perm l).sizeOf_eq_sizeOf

theorem mem_sortEntries {e : FSEntry} {l : List FSEntry} :
    e ∈ sortEntries l ↔ e ∈ l :=
  (sortEntries_perm l).mem_iff

mutual

/-- Source `process_directory_structure(path, parent_element)` for one
directory: `rel` is the directory's root-relative path (`""` for the
root), `readable = false` models `PermissionError` on `os.listdir`
(the function returns without appending anything), `entries` the raw
listing.  Returns the nodes appended to the parent element. -/
def process_directory_structure (cfg : Config) (rel : String)
    (readable : Bool) (entries : List FSEntry) : List XmlNode :=
  if readable then structure_items cfg rel (sortEntries entries) else []
termination_by sizeOf entries + 1
decreasing_by
  simp only [sizeOf_sortEntries]; omega

/-- The `for item in items` loop body of `process_directory_structure`. -/
def structure_items (cfg : Config) (rel : String) :
    List FSEntry → List XmlNode
  | [] => []
  | e :: rest =>
    let full_path := pyJoin rel (entryName e)
    (if should_exclude cfg (entryIsDir e) full_path false then []
     else
       match e with
       | .dir n r cs =>
         [XmlNode.dir n (process_directory_structure cfg full_path r cs)]
       | .file n _ => [XmlNode.file n full_path]
       | .other n => [XmlNode.file n full_path])
      ++ structure_items cfg rel rest
termination_by l => sizeOf l
decreasing_by
  all_goals simp
  all_goals omega

end

mutual

/-- Source `process_files_content(path, parent_element)` for one
directory, same listing and permission model as the structure pass but
filtering with the content tier; output is appended flat to the single
`contents` parent. -/
def process_files_content (cfg : Config) (rel : String)
    (readable : Bool) (entries : List FSEntry) : List XmlNode :=
  if readable then content_items cfg rel (sortEntries entries) else []
termination_by sizeOf entries + 1
decreasing_by
  simp only [sizeOf_sortEntries]; omega

/-- The `for item in items` loop body of `process_files_content`. -/
def content_items (cfg : Config) (rel : String) :
    List FSEntry → List XmlNode
  | [] => []
  | e :: rest =>
    let full_path := pyJoin rel (entryName e)
    (if should_exclude cfg (entryIsDir e) full_path true then []
     else
       match e with
       | .file n _ => [XmlNode.file n full_path]
       | .dir _ r cs => process_files_content cfg full_path r cs
       | .other _ => [])
      ++ content_items cfg rel rest
termination_by l => sizeOf l
decreasing_by
  all_goals simp
  all_goals omega

end

/-- The CDATA terminator sequence. -/
def cdata_terminator : String := "]]>"

/-- The replacement the source applies when the terminator occurs in a
file's content (`content.replace(']]>', ']]]]><![CDATA[>')`). -/
def cdata_split_marker : String := "]]]]><![CDATA[>"

/-- The terminator-collision handling in `create_project_xml`: replace
the terminator when present, otherwise keep the content unchanged. -/
def escape_content (content : String) : String :=
  if containsL cdata_terminator.data content.data then
    ⟨replaceL cdata_terminator.data cdata_split_marker.data content.data⟩
  else content

/-- Model of CPython `xml.dom.minidom.CDATASection.writexml`: raises
`ValueError` when the node data still contains the terminator, else
writes the data wrapped in a CDATA section. -/
def cdata_writexml (data : String) : Except String String :=
  if containsL cdata_terminator.data data.data then
    .error "']]>' not allowed in a CDATA section"
  else
    .ok ("<![CDATA[" ++ data ++ "]]>")

/-- A file element of the `contents` section before content population
(spec: FileEntry with content pending). -/
structure FileEntry where
  name : String
  path : String
deriving DecidableEq

/-- A file element after the CDATA-population loop: `cdata` is the data
of the CDATA node placed under its `content` element. -/
structure PopulatedEntry where
  name : String
  path : String
  cdata : String
deriving DecidableEq

/-- One iteration of the CDATA-population loop of `create_project_xml`:
open and read the file at the entry's path (`readText` models the
filesystem at read time, returning the text or the exception message
`str(e)`); on success apply the terminator replacement, on any failure
substitute the diagnostic placeholder — the exception is caught, so the
loop continues. -/
def populate_entry (readText : String → Except String String)
    (e : FileEntry) : PopulatedEntry :=
  match readText e.path with
  | .ok content => ⟨e.name, e.path, escape_content content⟩
  | .error msg => ⟨e.name, e.path, "Error reading file: " ++ msg⟩

/-- The CDATA-population loop over all `content` elements (every file
element of the contents section has a `path` attribute, so each is
processed). -/
def populate_contents (readText : String → Except String String) :
    List FileEntry → List PopulatedEntry
  | [] => []
  | e :: rest => populate_entry readText e :: populate_contents readText rest

/-- The name attribute of an emitted node. -/
def nodeName : XmlNode → String
  | .dir n _ => n
  | .file n _ => n

/-- The path attribute of an emitted node (`""` for `dir` nodes, which
carry no path attribute). -/
def nodePath : XmlNode → String
  | .dir _ _ => ""
  | .file _ p => p

/-- The node the structure pass emits for one non-excluded entry of the
directory at root-relative path `rel`. -/
def structNode (cfg : Config) (rel : String) : FSEntry → XmlNode
  | .file n _ => .file n (pyJoin rel n)
  | .other n => .file n (pyJoin rel n)
  | .dir n r cs =>
    .dir n (process_directory_structure cfg (pyJoin rel n) r cs)

/-- The nodes the structure-pass loop body appends for one entry. -/
def structure_item (cfg : Config) (rel : String) (e : FSEntry) :
    List XmlNode :=
  if should_exclude cfg (entryIsDir e) (pyJoin rel (entryName e)) false
  then [] else [structNode cfg rel e]

/-- The nodes the content-pass loop body appends for one entry. -/
def content_item (cfg : Config) (rel : String) (e : FSEntry) :
    List XmlNode :=
  if should_exclude cfg (entryIsDir e) (pyJoin rel (entryName e)) true
  then []
  else
    match e with
    | .file n _ => [XmlNode.file n (pyJoin rel n)]
    | .dir n r cs => process_files_content cfg (pyJoin rel n) r cs
    | .other _ => []

/-- The opening marker of a CDATA section. -/
def cdata_open : String := "<![CDATA["

/-- Split a character list at the first occurrence of `pat`
(`none` when `pat` does not occur). -/
def splitFirst (pat : List Char) : List Char → Option (List Char × List Char)
  | [] => none
  | c :: rest =>
    if startsWithL pat (c :: rest) then some ([], (c :: rest).drop pat.length)
    else
      match splitFirst pat rest with
      | some (before, after) => some (c :: before, after)
      | none => none

/-- Modelled from the spec ("reconstructing the literal text ...
recovers the original content"): the reader's view of one serialized
CDATA section — the text between the opening marker and the terminator,
provided the input is exactly one well-formed section. -/
def parse_cdata_section (l : List Char) : Option (List Char) :=
  if startsWithL cdata_open.data l then
    match splitFirst cdata_terminator.data (l.drop cdata_open.data.length) with
    | some (data, rest) => if rest = [] then some data else none
    | none => none
  else none

/-- Modelled from the spec ("sorted lexicographically by name"):
`LexLe s t` is the textbook lexicographic order on code-point
sequences — `s.data` is a prefix of `t.data`, or at the first
difference `s`'s character is smaller (`<` on `Char` compares code
points). -/
def LexLe (s t : String) : Prop :=
  (∃ ext, t.data = s.data ++ ext) ∨
  ∃ pre a b as bs, s.data = pre ++ a :: as ∧ t.data = pre ++ b :: bs ∧
    a < b

/-- A file the content pass can reach: it is a regular-file entry of the
current directory that the content tier does not exclude, or it lies in
a non-excluded, listable subdirectory, recursively.  `rel` is the
root-relative path of the current directory, the last two arguments the
reached file's name and root-relative path. -/
inductive ContentReach (cfg : Config) :
    String → List FSEntry → String → String → Prop where
  | here {rel : String} {cs : List FSEntry} {n : String}
      {d : Except String String} :
      FSEntry.file n d ∈ cs →
      should_exclude cfg false (pyJoin rel n) true = false →
      ContentReach cfg rel cs n (pyJoin rel n)
  | deeper {rel : String} {cs : List FSEntry} {n : String}
      {cs' : List FSEntry} {nm p : String} :
      FSEntry.dir n true cs' ∈ cs →
      should_exclude cfg true (pyJoin rel n) true = false →
      ContentReach cfg (pyJoin rel n) cs' nm p →
      ContentReach cfg rel cs nm p

/-- A regular file exists in the tree at the given root-relative path
(no exclusion filtering: "a real file under the root directory"). -/
inductive FileAt : String → List FSEntry → String → Prop where
  | here {rel : String} {cs : List FSEntry} {n : String}
      {d : Except String String} :
      FSEntry.file n d ∈ cs → FileAt rel cs (pyJoin rel n)
  | deeper {rel : String} {cs : List FSEntry} {n : String} {r : Bool}
      {cs' : List FSEntry} {p : String} :
      FSEntry.dir n r cs' ∈ cs → FileAt (pyJoin rel n) cs' p →
      FileAt rel cs p

/-- The character prefix every path produced inside the directory with
root-relative path `rel` carries: empty at the root, `rel` plus a
separator below it. -/
def relPre (rel : String) : List Char :=
  if rel = "" then [] else rel.data ++ ['/']

/-- A well-formed entry name, as `os.listdir` guarantees: nonempty and
free of the path separator. -/
def goodName (n : String) : Bool :=
  !(n = "") && n.data.all (fun c => !(c = '/'))

mutual

/-- Well-formedness of one tree entry: its name is a well-formed listing
name and, for a directory, its children form a well-formed listing. -/
def wfEntry : FSEntry → Bool
  | .file n _ => goodName n
  | .other n => goodName n
  | .dir n _ cs => goodName n && wfList cs

/-- Well-formedness of a directory listing, as real filesystems
guarantee: sibling names are pairwise distinct and every entry is
well-formed, recursively. -/
def wfList : List FSEntry → Bool
  | [] => true
  | e :: rest =>
    wfEntry e && !((rest.map entryName).contains (entryName e)) && wfList rest

end

/-! ### String-primitive lemmas -/

theorem startsWithL_iff (p l : List Char) :
    startsWithL p l = true ↔ ∃ rest, l = p ++ rest := by
  induction p generalizing l with
  | nil => simp [startsWithL]
  | cons a as ih =>
    cases l with
    | nil =>
      simp only [startsWithL, List.cons_append]
      constructor
      · intro h; cases h
      · rintro ⟨rest, h⟩; cases h
    | cons c cs =>
      simp only [startsWithL, Bool.and_eq_true, beq_iff_eq, ih,
        List.cons_append, List.cons.injEq]
      constructor
      · rintro ⟨rfl, rest, rfl⟩; exact ⟨rest, rfl, rfl⟩
      · rintro ⟨rest, rfl, rfl⟩; exact ⟨rfl, rest, rfl⟩

theorem endsWithL_iff (s t : List Char) :
    endsWithL s t = true ↔ ∃ pre, s = pre ++ t := by
  unfold endsWithL
  rw [startsWithL_iff]
  constructor
  · rintro ⟨rest, h⟩
    refine ⟨rest.reverse, ?_⟩
    have := congrArg List.reverse h
    simpa using this
  · rintro ⟨pre, rfl⟩
    exact ⟨pre.reverse, by simp⟩

/-! ### C2: the content tier is a superset of the structure tier -/

/-- C2: for every configuration, every `isdir` answer and every path,
if `should_exclude` excludes the path for the structure pass
(`content_only = False`) then it also excludes it for the content pass
(`content_only = True`). -/
theorem should_exclude_monotone (cfg : Config) (isDir : Bool) (p : String)
    (h : should_exclude cfg isDir p false = true) :
    should_exclude cfg isDir p true = true := by
  unfold should_exclude at h ⊢
  cases isDir <;> simp_all

theorem should_exclude_monotone_witness :
    should_exclude default_config true ".git" false = true ∧
    should_exclude default_config true ".git" true = true :=
  ⟨rfl, should_exclude_monotone default_config true ".git" rfl⟩

/-! ### C8: determinism of the exclusion matcher -/

/-- C8 counterexample: `should_exclude` is not determined by the
configuration and the path string alone — it also consults
`os.path.isdir(path)`, which is filesystem state.  With the default
configuration and the path `"migrations"` in content mode, the two
possible `isdir` answers give different results (a directory named
`migrations` is excluded, a file named `migrations` is not). -/
theorem should_exclude_depends_on_isdir :
    ¬ (should_exclude default_config true "migrations" true =
       should_exclude default_config false "migrations" true) := by
  decide

/-- C8 amended: given the configuration, the `os.path.isdir` answer and
the tier, the result of `should_exclude` depends only on the basename of
the path — in particular two calls with the same configuration, the same
path and the same `isdir` answer always agree, and no other state is
consulted. -/
theorem should_exclude_deterministic (cfg : Config)
    (isDir content_only : Bool) (p₁ p₂ : String)
    (h : basename p₁ = basename p₂) :
    should_exclude cfg isDir p₁ content_only =
      should_exclude cfg isDir p₂ content_only := by
  unfold should_exclude
  rw [h]

theorem should_exclude_deterministic_witness :
    basename "a/migrations" = basename "b/migrations" ∧
    should_exclude default_config true "a/migrations" true =
      should_exclude default_config true "b/migrations" true :=
  ⟨rfl, should_exclude_deterministic default_config true true
    "a/migrations" "b/migrations" rfl⟩

/-! ### C7: pattern matching semantics -/

theorem single_pattern_iff (name pat : String) :
    (match pat.data with
     | '*' :: suffChars => endsWithL name.data suffChars
     | _ => name == pat) = true ↔
      ((∃ suffChars, pat.data = '*' :: suffChars ∧
          ∃ pre, name.data = pre ++ suffChars) ∨
       ((∀ s, pat.data ≠ '*' :: s) ∧ name = pat)) := by
  split
  next suffChars heq =>
    rw [endsWithL_iff]
    constructor
    · rintro ⟨pre, hpre⟩
      exact Or.inl ⟨suffChars, heq, pre, hpre⟩
    · rintro (⟨s, hs, pre, hpre⟩ | ⟨hall, _⟩)
      · rw [heq] at hs
        cases hs
        exact ⟨pre, hpre⟩
      · exact absurd heq (hall suffChars)
  next hnostar =>
    simp only [beq_iff_eq]
    constructor
    · intro h
      refine Or.inr ⟨?_, h⟩
      intro s hs
      exact hnostar s hs
    · rintro (⟨s, hs, _⟩ | ⟨_, h⟩)
      · exact absurd hs (hnostar s)
      · exact h

/-- C7: `matches_patterns` matches a name against a pattern list exactly
when some pattern matches it, where a pattern starting with `*` matches
iff the name ends with the pattern's remainder (suffix match, i.e. the
name's code points are some prefix followed by the remainder), and any
other pattern matches iff the name equals the pattern exactly;
comparison is by code points (case-sensitive), with no path-segment
wildcards and no double-star. -/
theorem matches_patterns_spec (name : String) (patterns : List String) :
    matches_patterns name patterns = true ↔
      ∃ pat ∈ patterns,
        ((∃ suffChars, pat.data = '*' :: suffChars ∧
            ∃ pre, name.data = pre ++ suffChars) ∨
         ((∀ s, pat.data ≠ '*' :: s) ∧ name = pat)) := by
  unfold matches_patterns
  rw [List.any_eq_true]
  constructor
  · rintro ⟨pat, hmem, hmatch⟩
    exact ⟨pat, hmem, (single_pattern_iff name pat).mp hmatch⟩
  · rintro ⟨pat, hmem, h⟩
    exact ⟨pat, hmem, (single_pattern_iff name pat).mpr h⟩

theorem matches_patterns_spec_witness :
    (matches_patterns "foo.pyc" ["*.pyc"] = true ↔
      ∃ pat ∈ ["*.pyc"],
        ((∃ suffChars, pat.data = '*' :: suffChars ∧
            ∃ pre, "foo.pyc".data = pre ++ suffChars) ∨
         ((∀ s, pat.data ≠ '*' :: s) ∧ "foo.pyc" = pat))) :=
  matches_patterns_spec "foo.pyc" ["*.pyc"]

/-! ### C5: read failures are recorded per entry and do not abort -/

theorem populate_contents_length (readText : String → Except String String)
    (l : List FileEntry) :
    (populate_contents readText l).length = l.length := by
  induction l with
  | nil => rfl
  | cons e rest ih => simp [populate_contents, ih]

theorem populate_contents_get (readText : String → Except String String)
    (l : List FileEntry) (i : Nat) (h : i < l.length) :
    (populate_contents readText l).get
        ⟨i, by rw [populate_contents_length]; exact h⟩ =
      populate_entry readText (l.get ⟨i, h⟩) := by
  induction l generalizing i with
  | nil => cases h
  | cons e rest ih =>
    cases i with
    | zero => rfl
    | succ j => exact ih j (Nat.lt_of_succ_lt_succ h)

/-- C5: the CDATA-population loop processes every entry (the output has
one populated entry per input entry, each depending only on its own
read), and an entry whose read or decode raises with message `msg` gets
the placeholder content `"Error reading file: " ++ msg` while all other
entries are still processed. -/
theorem populate_error_recorded_and_continues
    (readText : String → Except String String) (entries : List FileEntry)
    (i : Nat) (hi : i < entries.length) (msg : String)
    (herr : readText (entries.get ⟨i, hi⟩).path = .error msg) :
    (populate_contents readText entries).length = entries.length ∧
    (populate_contents readText entries).get
        ⟨i, by rw [populate_contents_length]; exact hi⟩ =
      ⟨(entries.get ⟨i, hi⟩).name, (entries.get ⟨i, hi⟩).path,
        "Error reading file: " ++ msg⟩ := by
  refine ⟨populate_contents_length _ _, ?_⟩
  rw [populate_contents_get]
  unfold populate_entry
  rw [herr]

theorem populate_error_recorded_and_continues_witness :
    (fun _ => (Except.error "boom" : Except String String))
        ((([⟨"a.txt", "a.txt"⟩, ⟨"b.txt", "b.txt"⟩] : List FileEntry).get
          ⟨0, by decide⟩).path) = .error "boom" ∧
    ((populate_contents (fun _ => (Except.error "boom" : Except String String))
        [⟨"a.txt", "a.txt"⟩, ⟨"b.txt", "b.txt"⟩]).length =
      ([⟨"a.txt", "a.txt"⟩, ⟨"b.txt", "b.txt"⟩] : List FileEntry).length ∧
     (populate_contents (fun _ => (Except.error "boom" : Except String String))
        [⟨"a.txt", "a.txt"⟩, ⟨"b.txt", "b.txt"⟩]).get
        ⟨0, by rw [populate_contents_length]; decide⟩ =
      ⟨(([⟨"a.txt", "a.txt"⟩, ⟨"b.txt", "b.txt"⟩] : List FileEntry).get
          ⟨0, by decide⟩).name,
       (([⟨"a.txt", "a.txt"⟩, ⟨"b.txt", "b.txt"⟩] : List FileEntry).get
          ⟨0, by decide⟩).path,
       "Error reading file: " ++ "boom"⟩) :=
  ⟨rfl, populate_error_recorded_and_continues
    (fun _ => (Except.error "boom" : Except String String))
    [⟨"a.txt", "a.txt"⟩, ⟨"b.txt", "b.txt"⟩] 0 (by decide) "boom" rfl⟩

/-! ### C1: terminator collisions abort the serialization -/

theorem startsWithL_append (p l t : List Char)
    (h : startsWithL p l = true) : startsWithL p (l ++ t) = true := by
  rw [startsWithL_iff] at h ⊢
  obtain ⟨rest, rfl⟩ := h
  exact ⟨rest ++ t, by simp⟩

theorem containsL_nil_pat (t : List Char) : containsL [] t = true := by
  cases t <;> simp [containsL, startsWithL]

theorem containsL_append_left (pat l t : List Char)
    (h : containsL pat l = true) : containsL pat (l ++ t) = true := by
  induction l with
  | nil =>
    simp only [containsL, List.isEmpty_iff] at h
    subst h
    exact containsL_nil_pat t
  | cons c rest ih =>
    simp only [containsL, Bool.or_eq_true] at h ⊢
    rcases h with h | h
    · exact Or.inl (by simpa using startsWithL_append _ _ t h)
    · exact Or.inr (ih h)

theorem containsL_replaceFuel (f : Nat) (l : List Char) (hf : l.length ≤ f)
    (h : containsL cdata_terminator.data l = true) :
    containsL cdata_terminator.data
      (replaceFuel cdata_terminator.data cdata_split_marker.data f l) =
      true := by
  induction f generalizing l with
  | zero =>
    cases l with
    | nil =>
      rw [show containsL cdata_terminator.data [] = false from rfl] at h
      cases h
    | cons c rest => simp at hf
  | succ f ih =>
    cases l with
    | nil =>
      rw [show containsL cdata_terminator.data [] = false from rfl] at h
      cases h
    | cons c rest =>
      rw [replaceFuel]
      by_cases hs : startsWithL cdata_terminator.data (c :: rest) = true
      · rw [if_pos hs]
        exact containsL_append_left _ _ _ rfl
      · rw [if_neg hs]
        simp only [containsL, Bool.or_eq_true] at h
        rcases h with h | h
        · exact absurd h hs
        · have hrest : rest.length ≤ f := by
            simpa using Nat.le_of_succ_le_succ hf
          have := ih rest hrest h
          simp only [containsL, Bool.or_eq_true]
          exact Or.inr this

/-- Whenever a file's content contains the terminator, the replacement
the source applies leaves at least one terminator occurrence in the
CDATA node's data (the replacement string itself contains one), so
minidom's `writexml` raises `ValueError` and the run aborts instead of
producing XML. -/
theorem cdata_writexml_escape_error (content : String)
    (h : containsL cdata_terminator.data content.data = true) :
    cdata_writexml (escape_content content) =
      Except.error "']]>' not allowed in a CDATA section" := by
  have hc : containsL cdata_terminator.data (escape_content content).data =
      true := by
    unfold escape_content
    rw [if_pos h]
    exact containsL_replaceFuel content.data.length content.data
      (Nat.le_refl _) h
  unfold cdata_writexml
  rw [if_pos hc]

/-- C1: evaluating the serializer at the failing input `"a]]>b"` (a file
content containing the CDATA terminator): the replacement
`']]>' → ']]]]><![CDATA[>'` leaves the terminator in the single CDATA
node's data, so minidom's `writexml` raises
`ValueError("']]>' not allowed in a CDATA section")` during
`toprettyxml`; the run aborts with no XML output instead of emitting a
well-formed document. -/
theorem cdata_collision_aborts_run :
    cdata_writexml (escape_content "a]]>b") =
      Except.error "']]>' not allowed in a CDATA section" := rfl

/-! ### C6: round-trip without terminator collisions -/

theorem startsWithL_append_of_length_le (p l t : List Char)
    (h : p.length ≤ l.length) :
    startsWithL p (l ++ t) = startsWithL p l := by
  induction p generalizing l with
  | nil => simp [startsWithL]
  | cons a as ih =>
    cases l with
    | nil => simp at h
    | cons c cs =>
      simp only [List.cons_append, startsWithL, List.append_eq]
      rw [ih cs (Nat.le_of_succ_le_succ h)]

theorem startsWithL_self_append (p t : List Char) :
    startsWithL p (p ++ t) = true :=
  (startsWithL_iff _ _).mpr ⟨t, rfl⟩

/-- Finding the first terminator occurrence in `c ++ "]]>"` when `c`
itself contains none: the appended terminator is the first occurrence
(no occurrence can straddle the boundary, because the terminator's
proper prefixes `"]"` and `"]]"` cannot be completed by its own opening
characters). -/
theorem splitFirst_term_append (c : List Char)
    (h : containsL cdata_terminator.data c = false) :
    splitFirst cdata_terminator.data (c ++ cdata_terminator.data) =
      some (c, []) := by
  induction c with
  | nil => rfl
  | cons a c' ih =>
    have h' : startsWithL cdata_terminator.data (a :: c') = false ∧
        containsL cdata_terminator.data c' = false := by
      simpa [containsL] using h
    have hns : startsWithL cdata_terminator.data
        (a :: (c' ++ cdata_terminator.data)) = false := by
      match c' with
      | [] =>
        show (']' == a && startsWithL [']', '>'] cdata_terminator.data) =
          false
        rw [show startsWithL [']', '>'] cdata_terminator.data = false
          from rfl]
        exact Bool.and_false _
      | [b] =>
        show (']' == a &&
          (']' == b && startsWithL ['>'] cdata_terminator.data)) = false
        rw [show startsWithL ['>'] cdata_terminator.data = false from rfl]
        simp
      | b :: d :: c'' =>
        show startsWithL cdata_terminator.data
          ((a :: b :: d :: c'') ++ cdata_terminator.data) = false
        rw [startsWithL_append_of_length_le _ _ _
          (by simp only [show cdata_terminator.data.length = 3 from rfl,
            List.length_cons]; omega)]
        exact h'.1
    rw [List.cons_append, splitFirst, if_neg (by simp [hns]),
      ih h'.2]

/-- C6: for a file content free of the terminator sequence, the
serializer leaves the text unchanged, `writexml` succeeds and emits one
CDATA section, and the reader's recovery of that section's literal text
returns the original content exactly. -/
theorem cdata_no_collision_roundtrip (content : String)
    (h : containsL cdata_terminator.data content.data = false) :
    escape_content content = content ∧
    cdata_writexml content =
      Except.ok ("<![CDATA[" ++ content ++ "]]>") ∧
    parse_cdata_section ("<![CDATA[" ++ content ++ "]]>").data =
      some content.data := by
  refine ⟨?_, ?_, ?_⟩
  · unfold escape_content
    rw [if_neg (by simp [h])]
  · unfold cdata_writexml
    rw [if_neg (by simp [h])]
  · unfold parse_cdata_section
    have hdata : ("<![CDATA[" ++ content ++ "]]>").data =
        cdata_open.data ++ (content.data ++ cdata_terminator.data) := by
      simp [cdata_open, cdata_terminator]
    rw [hdata, if_pos (startsWithL_self_append _ _), List.drop_left,
      splitFirst_term_append content.data h]
    rfl

theorem cdata_no_collision_roundtrip_witness :
    containsL cdata_terminator.data "hello".data = false ∧
    (escape_content "hello" = "hello" ∧
     cdata_writexml "hello" =
       Except.ok ("<![CDATA[" ++ "hello" ++ "]]>") ∧
     parse_cdata_section ("<![CDATA[" ++ "hello" ++ "]]>").data =
       some "hello".data) :=
  ⟨rfl, cdata_no_collision_roundtrip "hello" rfl⟩

/-! ### The sorting order -/

theorem lexLeL_total (s t : List Char) :
    lexLeL s t = true ∨ lexLeL t s = true := by
  induction s generalizing t with
  | nil => exact Or.inl rfl
  | cons a as ih =>
    cases t with
    | nil => exact Or.inr rfl
    | cons b bs =>
      by_cases hab : a = b
      · subst hab
        simpa only [lexLeL, if_pos] using ih bs
      · simp only [lexLeL, if_neg hab, if_neg (Ne.symm hab),
          decide_eq_true_eq]
        exact lt_or_gt_of_ne hab

theorem lexLeL_trans (s t u : List Char) (h1 : lexLeL s t = true)
    (h2 : lexLeL t u = true) : lexLeL s u = true := by
  induction s generalizing t u with
  | nil => rfl
  | cons a as ih =>
    cases t with
    | nil => exact absurd h1 (by simp [lexLeL])
    | cons b bs =>
      cases u with
      | nil => exact absurd h2 (by simp [lexLeL])
      | cons c cs =>
        by_cases hab : a = b <;> by_cases hbc : b = c
        · subst hab; subst hbc
          simp only [lexLeL, if_pos] at h1 h2 ⊢
          exact ih bs cs h1 h2
        · subst hab
          simp only [lexLeL, if_pos] at h1
          simp only [lexLeL, if_neg hbc] at h2 ⊢
          exact h2
        · subst hbc
          simp only [lexLeL, if_pos] at h2
          simp only [lexLeL, if_neg hab] at h1 ⊢
          exact h1
        · simp only [lexLeL, if_neg hab, decide_eq_true_eq] at h1
          simp only [lexLeL, if_neg hbc, decide_eq_true_eq] at h2
          have hac : a < c := lt_trans h1 h2
          simp only [lexLeL, if_neg (ne_of_lt hac), decide_eq_true_eq]
          exact hac

instance : IsTotal FSEntry entryLeR :=
  ⟨fun a b => lexLeL_total (entryName a).data (entryName b).data⟩

instance : IsTrans FSEntry entryLeR :=
  ⟨fun _ _ _ h1 h2 => lexLeL_trans _ _ _ h1 h2⟩

theorem sortEntries_sorted (l : List FSEntry) :
    (sortEntries l).Pairwise entryLeR := by
  rw [sortEntries_eq]
  exact List.sorted_insertionSort entryLeR l

/-- The executable comparison agrees with the spec's lexicographic
order. -/
theorem lexLeL_iff_lexLe (s t : List Char) :
    lexLeL s t = true ↔
      ((∃ ext, t = s ++ ext) ∨
       ∃ pre a b as bs, s = pre ++ a :: as ∧ t = pre ++ b :: bs ∧
         a < b) := by
  induction s generalizing t with
  | nil =>
    constructor
    · intro _
      exact Or.inl ⟨t, rfl⟩
    · intro _
      rfl
  | cons a as ih =>
    cases t with
    | nil =>
      constructor
      · intro h
        exact absurd h (by simp [lexLeL])
      · rintro (⟨ext, hext⟩ | ⟨pre, x, y, xs, ys, _, hy, _⟩)
        · exact absurd hext.symm (by simp)
        · exact absurd hy.symm (by simp)
    | cons b bs =>
      by_cases hab : a = b
      · subst hab
        rw [show lexLeL (a :: as) (a :: bs) = lexLeL as bs from
          by simp [lexLeL], ih bs]
        constructor
        · rintro (⟨ext, rfl⟩ | ⟨pre, x, y, xs, ys, rfl, rfl, hxy⟩)
          · exact Or.inl ⟨ext, rfl⟩
          · exact Or.inr ⟨a :: pre, x, y, xs, ys, rfl, rfl, hxy⟩
        · rintro (⟨ext, hext⟩ | ⟨pre, x, y, xs, ys, hs, ht, hxy⟩)
          · rw [List.cons_append, List.cons.injEq] at hext
            exact Or.inl ⟨ext, hext.2⟩
          · cases pre with
            | nil =>
              simp only [List.nil_append, List.cons.injEq] at hs ht
              obtain ⟨rfl, _⟩ := hs
              obtain ⟨rfl, _⟩ := ht
              exact absurd hxy (lt_irrefl _)
            | cons p pre' =>
              simp only [List.cons_append, List.cons.injEq] at hs ht
              obtain ⟨rfl, hs'⟩ := hs
              obtain ⟨_, ht'⟩ := ht
              exact Or.inr ⟨pre', x, y, xs, ys, hs', ht', hxy⟩
      · rw [show lexLeL (a :: as) (b :: bs) = decide (a < b) from
          by simp [lexLeL, hab], decide_eq_true_eq]
        constructor
        · intro h
          exact Or.inr ⟨[], a, b, as, bs, rfl, rfl, h⟩
        · rintro (⟨ext, hext⟩ | ⟨pre, x, y, xs, ys, hs, ht, hxy⟩)
          · rw [List.cons_append, List.cons.injEq] at hext
            exact absurd hext.1.symm hab
          · cases pre with
            | nil =>
              simp only [List.nil_append, List.cons.injEq] at hs ht
              obtain ⟨rfl, _⟩ := hs
              obtain ⟨rfl, _⟩ := ht
              exact hxy
            | cons p pre' =>
              simp only [List.cons_append, List.cons.injEq] at hs ht
              exact absurd (hs.1.trans ht.1.symm) hab

theorem entryLeR_lexLe {x y : FSEntry} (h : entryLeR x y) :
    LexLe (entryName x) (entryName y) :=
  (lexLeL_iff_lexLe _ _).mp h

/-! ### C4: the structure walker -/

theorem structure_items_cons (cfg : Config) (rel : String) (e : FSEntry)
    (rest : List FSEntry) :
    structure_items cfg rel (e :: rest) =
      structure_item cfg rel e ++ structure_items cfg rel rest := by
  cases e <;> (rw [structure_items]; rfl)

theorem content_items_cons (cfg : Config) (rel : String) (e : FSEntry)
    (rest : List FSEntry) :
    content_items cfg rel (e :: rest) =
      content_item cfg rel e ++ content_items cfg rel rest := by
  cases e <;> (rw [content_items]; rfl)

theorem bool_not_true {b : Bool} (h : ¬ b = true) : b = false := by
  revert h
  cases b <;> simp

theorem mem_structure_item {cfg : Config} {rel : String} {e : FSEntry}
    {node : XmlNode} :
    node ∈ structure_item cfg rel e ↔
      should_exclude cfg (entryIsDir e) (pyJoin rel (entryName e))
          false = false ∧
      node = structNode cfg rel e := by
  unfold structure_item
  by_cases h : should_exclude cfg (entryIsDir e) (pyJoin rel (entryName e))
      false = true
  · rw [if_pos h]
    simp [h]
  · rw [if_neg h]
    simp [bool_not_true h]

theorem mem_structure_items {cfg : Config} {rel : String}
    {l : List FSEntry} {node : XmlNode} :
    node ∈ structure_items cfg rel l ↔
      ∃ e ∈ l, node ∈ structure_item cfg rel e := by
  induction l with
  | nil => simp [structure_items]
  | cons e rest ih =>
    rw [structure_items_cons]
    simp only [List.mem_append, ih, List.mem_cons]
    constructor
    · rintro (h | ⟨e', he', h⟩)
      · exact ⟨e, Or.inl rfl, h⟩
      · exact ⟨e', Or.inr he', h⟩
    · rintro ⟨e', rfl | he', h⟩
      · exact Or.inl h
      · exact Or.inr ⟨e', he', h⟩

theorem nodeName_structNode (cfg : Config) (rel : String) (e : FSEntry) :
    nodeName (structNode cfg rel e) = entryName e := by
  cases e <;> rfl

theorem structure_names_sublist (cfg : Config) (rel : String)
    (l : List FSEntry) :
    ((structure_items cfg rel l).map nodeName).Sublist
      (l.map entryName) := by
  induction l with
  | nil =>
    rw [structure_items]
    simp
  | cons e rest ih =>
    rw [structure_items_cons, List.map_append, List.map_cons]
    have hitem : (structure_item cfg rel e).map nodeName = [] ∨
        (structure_item cfg rel e).map nodeName = [entryName e] := by
      unfold structure_item
      by_cases h : should_exclude cfg (entryIsDir e)
          (pyJoin rel (entryName e)) false = true
      · rw [if_pos h]
        exact Or.inl rfl
      · rw [if_neg h]
        exact Or.inr (by rw [List.map_singleton, nodeName_structNode])
    rcases hitem with h | h <;> rw [h]
    · exact ih.cons _
    · rw [List.singleton_append]
      exact ih.cons₂ _

theorem structure_output_sorted (cfg : Config) (rel : String)
    (cs : List FSEntry) :
    List.Pairwise (fun x y => LexLe (nodeName x) (nodeName y))
      (process_directory_structure cfg rel true cs) := by
  rw [process_directory_structure, if_pos rfl]
  have hsorted : List.Pairwise LexLe ((sortEntries cs).map entryName) :=
    List.pairwise_map.mpr ((sortEntries_sorted cs).imp
      fun h => entryLeR_lexLe h)
  have hsub := structure_names_sublist cfg rel (sortEntries cs)
  exact List.pairwise_map.mp (List.Pairwise.sublist hsub hsorted)

/-- C4: the structure walker. (i) A permission-denied listing
contributes nothing (treated as empty, not an error); (ii) the emitted
children appear in lexicographically sorted name order; (iii) a child
excluded under the structure tier contributes no entry at all (and hence
no recursion); (iv) a non-excluded directory child is recursed into and
the recursion's result attached as its `dir` node; (v) a non-excluded
regular-file child becomes a `file` leaf carrying its root-relative
path. -/
theorem structure_walker_spec (cfg : Config) (rel : String)
    (cs : List FSEntry) (hnames : (cs.map entryName).Nodup) :
    process_directory_structure cfg rel false cs = [] ∧
    List.Pairwise (fun x y => LexLe (nodeName x) (nodeName y))
      (process_directory_structure cfg rel true cs) ∧
    (∀ e ∈ cs,
      should_exclude cfg (entryIsDir e) (pyJoin rel (entryName e)) false =
        true →
      ∀ node ∈ process_directory_structure cfg rel true cs,
        nodeName node ≠ entryName e) ∧
    (∀ n r cs', FSEntry.dir n r cs' ∈ cs →
      should_exclude cfg true (pyJoin rel n) false = false →
      XmlNode.dir n (process_directory_structure cfg (pyJoin rel n) r cs') ∈
        process_directory_structure cfg rel true cs) ∧
    (∀ n d, FSEntry.file n d ∈ cs →
      should_exclude cfg false (pyJoin rel n) false = false →
      XmlNode.file n (pyJoin rel n) ∈
        process_directory_structure cfg rel true cs) := by
  refine ⟨?_, structure_output_sorted cfg rel cs, ?_, ?_, ?_⟩
  · rw [process_directory_structure]
    rfl
  · intro e he hexcl node hnode
    rw [process_directory_structure, if_pos rfl] at hnode
    obtain ⟨e', he', hitem⟩ := mem_structure_items.mp hnode
    obtain ⟨hns, rfl⟩ := mem_structure_item.mp hitem
    rw [nodeName_structNode]
    intro heq
    have he'' : e' ∈ cs := mem_sortEntries.mp he'
    have heq' : e' = e := List.inj_on_of_nodup_map hnames he'' he heq
    subst heq'
    rw [hexcl] at hns
    cases hns
  · intro n r cs' hmem hns
    rw [process_directory_structure, if_pos rfl]
    exact mem_structure_items.mpr ⟨FSEntry.dir n r cs',
      mem_sortEntries.mpr hmem, mem_structure_item.mpr ⟨hns, rfl⟩⟩
  · intro n d hmem hns
    rw [process_directory_structure, if_pos rfl]
    exact mem_structure_items.mpr ⟨FSEntry.file n d,
      mem_sortEntries.mpr hmem, mem_structure_item.mpr ⟨hns, rfl⟩⟩

theorem structure_walker_spec_witness :
    (([FSEntry.file "a.txt" (Except.ok "x")].map entryName).Nodup) ∧
    (process_directory_structure default_config "" false
        [FSEntry.file "a.txt" (Except.ok "x")] = [] ∧
     List.Pairwise (fun x y => LexLe (nodeName x) (nodeName y))
       (process_directory_structure default_config "" true
         [FSEntry.file "a.txt" (Except.ok "x")]) ∧
     (∀ e ∈ [FSEntry.file "a.txt" (Except.ok "x")],
       should_exclude default_config (entryIsDir e)
           (pyJoin "" (entryName e)) false = true →
       ∀ node ∈ process_directory_structure default_config "" true
           [FSEntry.file "a.txt" (Except.ok "x")],
         nodeName node ≠ entryName e) ∧
     (∀ n r cs',
       FSEntry.dir n r cs' ∈ [FSEntry.file "a.txt" (Except.ok "x")] →
       should_exclude default_config true (pyJoin "" n) false = false →
       XmlNode.dir n
           (process_directory_structure default_config (pyJoin "" n) r cs') ∈
         process_directory_structure default_config "" true
           [FSEntry.file "a.txt" (Except.ok "x")]) ∧
     (∀ n d, FSEntry.file n d ∈ [FSEntry.file "a.txt" (Except.ok "x")] →
       should_exclude default_config false (pyJoin "" n) false = false →
       XmlNode.file n (pyJoin "" n) ∈
         process_directory_structure default_config "" true
           [FSEntry.file "a.txt" (Except.ok "x")])) :=
  ⟨by decide, structure_walker_spec default_config ""
    [FSEntry.file "a.txt" (Except.ok "x")] (by decide)⟩

/-! ### C3: the content walker -/

theorem mem_content_items {cfg : Config} {rel : String}
    {l : List FSEntry} {node : XmlNode} :
    node ∈ content_items cfg rel l ↔
      ∃ e ∈ l, node ∈ content_item cfg rel e := by
  induction l with
  | nil => simp [content_items]
  | cons e rest ih =>
    rw [content_items_cons]
    simp only [List.mem_append, ih, List.mem_cons]
    constructor
    · rintro (h | ⟨e', he', h⟩)
      · exact ⟨e, Or.inl rfl, h⟩
      · exact ⟨e', Or.inr he', h⟩
    · rintro ⟨e', rfl | he', h⟩
      · exact Or.inl h
      · exact Or.inr ⟨e', he', h⟩

theorem process_files_content_not_readable (cfg : Config) (rel : String)
    (cs : List FSEntry) :
    process_files_content cfg rel false cs = [] := by
  rw [process_files_content]
  rfl

theorem content_forward (cfg : Config) :
    ∀ (N : Nat) (cs : List FSEntry), sizeOf cs ≤ N →
      ∀ (rel : String) (node : XmlNode),
        node ∈ process_files_content cfg rel true cs →
        ∃ nm p, node = XmlNode.file nm p ∧ ContentReach cfg rel cs nm p := by
  intro N
  induction N with
  | zero =>
    intro cs hcs
    exact absurd hcs (by cases cs <;> simp)
  | succ N ih =>
    intro cs hcs rel node hnode
    rw [process_files_content, if_pos rfl] at hnode
    obtain ⟨e, he, hitem⟩ := mem_content_items.mp hnode
    have he' : e ∈ cs := mem_sortEntries.mp he
    unfold content_item at hitem
    by_cases hexcl : should_exclude cfg (entryIsDir e)
        (pyJoin rel (entryName e)) true = true
    · rw [if_pos hexcl] at hitem
      cases hitem
    · rw [if_neg hexcl] at hitem
      have hexcl' := bool_not_true hexcl
      cases e with
      | file n d =>
        have hn : node = XmlNode.file n (pyJoin rel n) := by
          simpa using hitem
        subst hn
        exact ⟨n, pyJoin rel n, rfl, ContentReach.here he' hexcl'⟩
      | other n => cases hitem
      | dir n r cs' =>
        have hitem' : node ∈ process_files_content cfg (pyJoin rel n) r cs' :=
          hitem
        cases r with
        | false =>
          rw [process_files_content_not_readable] at hitem'
          cases hitem'
        | true =>
          have hsz : sizeOf cs' ≤ N := by
            have h1 := List.sizeOf_lt_of_mem he'
            have h2 : sizeOf cs' < sizeOf (FSEntry.dir n true cs') := by
              simp [FSEntry.dir.sizeOf_spec]
            omega
          obtain ⟨nm, p, hn, hreach⟩ :=
            ih cs' hsz (pyJoin rel n) node hitem'
          exact ⟨nm, p, hn, ContentReach.deeper he' hexcl' hreach⟩

theorem content_backward (cfg : Config) {rel : String} {cs : List FSEntry}
    {nm p : String} (h : ContentReach cfg rel cs nm p) :
    XmlNode.file nm p ∈ process_files_content cfg rel true cs := by
  induction h with
  | here hmem hns =>
    rw [process_files_content, if_pos rfl]
    exact mem_content_items.mpr
      ⟨_, mem_sortEntries.mpr hmem,
       by simp [content_item, entryIsDir, entryName, hns]⟩
  | deeper hmem hns _ ih =>
    rw [process_files_content, if_pos rfl]
    exact mem_content_items.mpr
      ⟨_, mem_sortEntries.mpr hmem,
       by simpa [content_item, entryIsDir, entryName, hns] using ih⟩

/-- C3: the `contents` section is a single flat list: every node the
content pass emits is a `file` element (no `dir` elements appear), and a
`file` element with a given name and path appears exactly for the files
the content tier lets through — regular files of the current directory
that are not content-excluded, plus, flattened in place, those reached
through non-excluded listable subdirectories. -/
theorem content_walker_spec (cfg : Config) (rel : String)
    (cs : List FSEntry) :
    (∀ node ∈ process_files_content cfg rel true cs,
       ∃ nm p, node = XmlNode.file nm p) ∧
    (∀ nm p, XmlNode.file nm p ∈ process_files_content cfg rel true cs ↔
       ContentReach cfg rel cs nm p) := by
  constructor
  · intro node hnode
    obtain ⟨nm, p, hn, _⟩ :=
      content_forward cfg (sizeOf cs) cs (Nat.le_refl _) rel node hnode
    exact ⟨nm, p, hn⟩
  · intro nm p
    constructor
    · intro h
      obtain ⟨nm', p', heq, hreach⟩ :=
        content_forward cfg (sizeOf cs) cs (Nat.le_refl _) rel _ h
      cases heq
      exact hreach
    · exact content_backward cfg

theorem content_walker_spec_witness :
    (XmlNode.file "a.txt" "a.txt" ∈
      process_files_content default_config "" true
        [FSEntry.file "a.txt" (Except.ok "x")]) ↔
    ContentReach default_config "" [FSEntry.file "a.txt" (Except.ok "x")]
      "a.txt" "a.txt" :=
  (content_walker_spec default_config ""
    [FSEntry.file "a.txt" (Except.ok "x")]).2 "a.txt" "a.txt"

/-! ### C9: path uniqueness machinery -/

theorem wfList_nodup {cs : List FSEntry} (h : wfList cs = true) :
    (cs.map entryName).Nodup := by
  induction cs with
  | nil => simp
  | cons e rest ih =>
    rw [wfList] at h
    simp only [Bool.and_eq_true, Bool.not_eq_true'] at h
    obtain ⟨⟨_, hcont⟩, hrest⟩ := h
    rw [List.map_cons, List.nodup_cons]
    refine ⟨?_, ih hrest⟩
    intro hmem
    rw [show (rest.map entryName).contains (entryName e) =
      (rest.map entryName).elem (entryName e) from rfl] at hcont
    rw [show ((rest.map entryName).elem (entryName e)) = false ↔
      ¬ (rest.map entryName).elem (entryName e) = true from by simp] at hcont
    exact hcont (List.elem_iff.mpr hmem)

theorem wfList_mem {cs : List FSEntry} {e : FSEntry}
    (h : wfList cs = true) (he : e ∈ cs) : wfEntry e = true := by
  induction cs with
  | nil => cases he
  | cons e' rest ih =>
    rw [wfList] at h
    simp only [Bool.and_eq_true] at h
    rcases List.mem_cons.mp he with rfl | he'
    · exact h.1.1
    · exact ih h.2 he'

theorem wfEntry_name {e : FSEntry} (h : wfEntry e = true) :
    goodName (entryName e) = true := by
  cases e with
  | file n d => exact h
  | other n => exact h
  | dir n r cs =>
    simp only [wfEntry, Bool.and_eq_true] at h
    exact h.1

theorem wfEntry_dir_wfList {n : String} {r : Bool} {cs' : List FSEntry}
    (h : wfEntry (FSEntry.dir n r cs') = true) : wfList cs' = true := by
  simp only [wfEntry, Bool.and_eq_true] at h
  exact h.2

theorem goodName_ne_empty {n : String} (h : goodName n = true) :
    n ≠ "" := by
  simp only [goodName, Bool.and_eq_true] at h
  simpa using h.1

theorem goodName_no_slash {n : String} (h : goodName n = true) :
    ∀ c ∈ n.data, c ≠ '/' := by
  simp only [goodName, Bool.and_eq_true, List.all_eq_true] at h
  intro c hc
  simpa using h.2 c hc

theorem string_append_sep_ne_empty (rel n : String) :
    rel ++ "/" ++ n ≠ "" := by
  intro h
  have := congrArg String.data h
  simp at this

theorem pyJoin_data (rel n : String) :
    (pyJoin rel n).data = relPre rel ++ n.data := by
  unfold pyJoin relPre
  by_cases h : rel = ""
  · simp [h]
  · rw [if_neg h, if_neg h]
    simp

theorem relPre_pyJoin (rel n : String) (hn : n ≠ "") :
    relPre (pyJoin rel n) = relPre rel ++ n.data ++ ['/'] := by
  unfold pyJoin relPre
  by_cases h : rel = ""
  · rw [if_pos h, if_pos h, if_neg hn]
    simp
  · rw [if_neg h, if_neg h, if_neg (string_append_sep_ne_empty rel n)]
    simp

theorem takeWhile_append_sep (l t : List Char)
    (hl : ∀ c ∈ l, c ≠ '/') (ht : t = [] ∨ ∃ t', t = '/' :: t') :
    (l ++ t).takeWhile (fun c => !(c = '/')) = l := by
  induction l with
  | nil =>
    rcases ht with rfl | ⟨t', rfl⟩
    · rfl
    · simp [List.takeWhile_cons]
  | cons c l ih =>
    rw [List.cons_append, List.takeWhile_cons]
    have hc : c ≠ '/' := hl c (List.mem_cons_self c l)
    rw [if_pos (by simpa using hc)]
    rw [ih (fun c' hc' => hl c' (List.mem_cons_of_mem _ hc'))]

theorem append_names_inj {n₁ n₂ : String} {t₁ t₂ : List Char}
    (h₁ : goodName n₁ = true) (h₂ : goodName n₂ = true)
    (ht₁ : t₁ = [] ∨ ∃ t, t₁ = '/' :: t)
    (ht₂ : t₂ = [] ∨ ∃ t, t₂ = '/' :: t)
    (heq : n₁.data ++ t₁ = n₂.data ++ t₂) : n₁ = n₂ := by
  have e1 := takeWhile_append_sep n₁.data t₁ (goodName_no_slash h₁) ht₁
  have e2 := takeWhile_append_sep n₂.data t₂ (goodName_no_slash h₂) ht₂
  have : n₁.data = n₂.data := by rw [← e1, ← e2, heq]
  cases n₁
  cases n₂
  exact congrArg String.mk this

/-- Every path the content pass can reach inside the directory at `rel`
is `relPre rel`, then the name of one of that directory's file or
listable-directory entries, then either nothing or a separator and more;
the entry reached through is a regular file or a readable directory,
never an `other` entry. -/
theorem reach_path_shape (cfg : Config) {rel : String} {cs : List FSEntry}
    {nm p : String} (h : ContentReach cfg rel cs nm p) :
    wfList cs = true →
    ∃ e ∈ cs,
      ((∃ d, e = FSEntry.file (entryName e) d) ∨
       (∃ cs', e = FSEntry.dir (entryName e) true cs')) ∧
      ∃ t, p.data = relPre rel ++ ((entryName e).data ++ t) ∧
        (t = [] ∨ ∃ t', t = '/' :: t') := by
  induction h with
  | here hmem hns =>
    intro _
    refine ⟨_, hmem, Or.inl ⟨_, rfl⟩, [], ?_, Or.inl rfl⟩
    rw [pyJoin_data]
    simp [entryName]
  | @deeper rel₀ cs₀ n cs' nm₀ p₀ hmem hns hrec ih =>
    intro hwf
    have hwfe := wfList_mem hwf hmem
    have hwf' := wfEntry_dir_wfList hwfe
    have hgood : goodName n = true := wfEntry_name hwfe
    obtain ⟨e', _, _, t', hdata', _⟩ := ih hwf'
    refine ⟨_, hmem, Or.inr ⟨_, rfl⟩,
      '/' :: ((entryName e').data ++ t'), ?_, Or.inr ⟨_, rfl⟩⟩
    rw [hdata', relPre_pyJoin rel₀ n (goodName_ne_empty hgood)]
    simp [entryName]

theorem reach_fileAt (cfg : Config) {rel : String} {cs : List FSEntry}
    {nm p : String} (h : ContentReach cfg rel cs nm p) :
    FileAt rel cs p := by
  induction h with
  | here hmem _ => exact FileAt.here hmem
  | deeper hmem _ _ ih => exact FileAt.deeper hmem ih

theorem content_item_path_shape (cfg : Config) {rel : String}
    {e : FSEntry} {p : String} (hwfe : wfEntry e = true)
    (hp : p ∈ (content_item cfg rel e).map nodePath) :
    ∃ t, p.data = relPre rel ++ ((entryName e).data ++ t) ∧
      (t = [] ∨ ∃ t', t = '/' :: t') := by
  unfold content_item at hp
  by_cases hexcl : should_exclude cfg (entryIsDir e)
      (pyJoin rel (entryName e)) true = true
  · rw [if_pos hexcl] at hp
    cases hp
  · rw [if_neg hexcl] at hp
    cases e with
    | file n d =>
      have hpn : p = pyJoin rel n := by simpa [nodePath] using hp
      subst hpn
      refine ⟨[], ?_, Or.inl rfl⟩
      rw [pyJoin_data]
      simp [entryName]
    | other n => cases hp
    | dir n r cs' =>
      have hp' : p ∈ (process_files_content cfg (pyJoin rel n) r cs').map
          nodePath := hp
      cases r with
      | false =>
        rw [process_files_content_not_readable] at hp'
        cases hp'
      | true =>
        obtain ⟨node, hnode, hpath⟩ := List.mem_map.mp hp'
        obtain ⟨nm, p₀, rfl, hreach⟩ := content_forward cfg (sizeOf cs') cs'
          (Nat.le_refl _) (pyJoin rel n) node hnode
        obtain ⟨e', _, _, t', hdata', _⟩ :=
          reach_path_shape cfg hreach (wfEntry_dir_wfList hwfe)
        have hpeq : p = p₀ := hpath.symm
        subst hpeq
        have hgood : goodName n = true := wfEntry_name hwfe
        refine ⟨'/' :: ((entryName e').data ++ t'), ?_, Or.inr ⟨_, rfl⟩⟩
        rw [hdata', relPre_pyJoin rel n (goodName_ne_empty hgood)]
        simp [entryName]

theorem content_items_path_shape (cfg : Config) {rel : String}
    {l : List FSEntry} {p : String} (hwfe : ∀ e ∈ l, wfEntry e = true)
    (hp : p ∈ (content_items cfg rel l).map nodePath) :
    ∃ e ∈ l, ∃ t, p.data = relPre rel ++ ((entryName e).data ++ t) ∧
      (t = [] ∨ ∃ t', t = '/' :: t') := by
  obtain ⟨node, hnode, hpath⟩ := List.mem_map.mp hp
  obtain ⟨e, he, hitem⟩ := mem_content_items.mp hnode
  exact ⟨e, he, content_item_path_shape cfg (hwfe e he)
    (hpath ▸ List.mem_map_of_mem nodePath hitem)⟩

theorem content_item_paths_nodup (cfg : Config) (N : Nat)
    (ihN : ∀ cs', sizeOf cs' ≤ N → ∀ rel', wfList cs' = true →
      ((process_files_content cfg rel' true cs').map nodePath).Nodup)
    {rel : String} {e : FSEntry} (hwfe : wfEntry e = true)
    (hsz : ∀ n r cs', e = FSEntry.dir n r cs' → sizeOf cs' ≤ N) :
    ((content_item cfg rel e).map nodePath).Nodup := by
  unfold content_item
  by_cases hexcl : should_exclude cfg (entryIsDir e)
      (pyJoin rel (entryName e)) true = true
  · rw [if_pos hexcl]
    simp
  · rw [if_neg hexcl]
    cases e with
    | file n d => simp
    | other n => simp
    | dir n r cs' =>
      cases r with
      | false =>
        show ((process_files_content cfg (pyJoin rel n) false cs').map
          nodePath).Nodup
        rw [process_files_content_not_readable]
        simp
      | true =>
        show ((process_files_content cfg (pyJoin rel n) true cs').map
          nodePath).Nodup
        exact ihN cs' (hsz n true cs' rfl) (pyJoin rel n)
          (wfEntry_dir_wfList hwfe)

theorem content_items_paths_nodup (cfg : Config) (N : Nat)
    (ihN : ∀ cs', sizeOf cs' ≤ N → ∀ rel', wfList cs' = true →
      ((process_files_content cfg rel' true cs').map nodePath).Nodup) :
    ∀ (l : List FSEntry) (rel : String),
      (l.map entryName).Nodup →
      (∀ e ∈ l, wfEntry e = true) →
      (∀ n r cs', FSEntry.dir n r cs' ∈ l → sizeOf cs' ≤ N) →
      ((content_items cfg rel l).map nodePath).Nodup := by
  intro l
  induction l with
  | nil =>
    intro rel _ _ _
    simp [content_items]
  | cons e rest ih =>
    intro rel hnodup hwfe hsz
    rw [content_items_cons, List.map_append]
    apply List.Nodup.append
    · refine content_item_paths_nodup cfg N ihN
        (hwfe e (List.mem_cons_self e rest)) ?_
      intro n r cs' heq
      refine hsz n r cs' ?_
      rw [← heq]
      exact List.mem_cons_self e rest
    · refine ih rel ?_ ?_ ?_
      · exact (List.nodup_cons.mp (by simpa using hnodup)).2
      · intro e' he'
        exact hwfe e' (List.mem_cons_of_mem _ he')
      · intro n r cs' h
        exact hsz n r cs' (List.mem_cons_of_mem _ h)
    · intro p hp1 hp2
      obtain ⟨t₁, hd₁, hs₁⟩ := content_item_path_shape cfg
        (hwfe e (List.mem_cons_self e rest)) hp1
      obtain ⟨e', he', t₂, hd₂, hs₂⟩ := content_items_path_shape cfg
        (fun e'' he'' => hwfe e'' (List.mem_cons_of_mem _ he'')) hp2
      have hcancel : (entryName e).data ++ t₁ = (entryName e').data ++ t₂ :=
        List.append_cancel_left (by rw [← hd₁, ← hd₂])
      have hname : entryName e = entryName e' :=
        append_names_inj
          (wfEntry_name (hwfe e (List.mem_cons_self e rest)))
          (wfEntry_name (hwfe e' (List.mem_cons_of_mem _ he')))
          hs₁ hs₂ hcancel
      have hhead : entryName e ∉ rest.map entryName :=
        (List.nodup_cons.mp (by simpa using hnodup)).1
      exact hhead (hname ▸ List.mem_map_of_mem entryName he')

theorem content_paths_nodup (cfg : Config) :
    ∀ (N : Nat) (cs : List FSEntry), sizeOf cs ≤ N →
      ∀ rel, wfList cs = true →
        ((process_files_content cfg rel true cs).map nodePath).Nodup := by
  intro N
  induction N with
  | zero =>
    intro cs h
    exact absurd h (by cases cs <;> simp)
  | succ N ihN =>
    intro cs hcs rel hwf
    rw [process_files_content, if_pos rfl]
    refine content_items_paths_nodup cfg N
      (fun cs' h rel' hw => ihN cs' h rel' hw) (sortEntries cs) rel
      ?_ ?_ ?_
    · exact (((sortEntries_perm cs).map entryName).nodup_iff).mpr
        (wfList_nodup hwf)
    · intro e he
      exact wfList_mem hwf (mem_sortEntries.mp he)
    · intro n r cs' hmem
      have hm : FSEntry.dir n r cs' ∈ cs := mem_sortEntries.mp hmem
      have h1 := List.sizeOf_lt_of_mem hm
      have h2 : sizeOf cs' < sizeOf (FSEntry.dir n r cs') := by
        simp only [FSEntry.dir.sizeOf_spec]
        omega
      omega

/-- C9: in the assembled document's `contents` list, the recorded
root-relative paths are pairwise distinct, and each one names a regular
file that exists in the tree under the root. -/
theorem contents_paths_unique_and_real (cfg : Config)
    (cs : List FSEntry) (hwf : wfList cs = true) :
    ((process_files_content cfg "" true cs).map nodePath).Nodup ∧
    ∀ node ∈ process_files_content cfg "" true cs,
      FileAt "" cs (nodePath node) := by
  constructor
  · exact content_paths_nodup cfg (sizeOf cs) cs (Nat.le_refl _) "" hwf
  · intro node hnode
    obtain ⟨nm, p, rfl, hreach⟩ := content_forward cfg (sizeOf cs) cs
      (Nat.le_refl _) "" node hnode
    exact reach_fileAt cfg hreach

theorem contents_paths_unique_and_real_witness :
    wfList [FSEntry.file "a.txt" (Except.ok "x"),
            FSEntry.file "b.txt" (Except.ok "y")] = true ∧
    (((process_files_content default_config "" true
        [FSEntry.file "a.txt" (Except.ok "x"),
         FSEntry.file "b.txt" (Except.ok "y")]).map nodePath).Nodup ∧
     ∀ node ∈ process_files_content default_config "" true
        [FSEntry.file "a.txt" (Except.ok "x"),
         FSEntry.file "b.txt" (Except.ok "y")],
       FileAt "" [FSEntry.file "a.txt" (Except.ok "x"),
                  FSEntry.file "b.txt" (Except.ok "y")] (nodePath node)) :=
  ⟨rfl, contents_paths_unique_and_real default_config
    [FSEntry.file "a.txt" (Except.ok "x"),
     FSEntry.file "b.txt" (Except.ok "y")] rfl⟩

/-! ### C10: entries that are neither files nor directories -/

/-- C10: a non-excluded entry that is neither a regular file nor a
directory (e.g. a broken symlink) is emitted by the structure pass as a
`file` leaf carrying its root-relative path, while the content pass
silently omits it: no `contents` element carries that path, and no error
is produced (the content pass has no error channel — the entry simply
falls through both the `isfile` and `isdir` branches). -/
theorem other_entry_structure_only (cfg : Config) (rel : String)
    (cs : List FSEntry) (n : String)
    (hwf : wfList cs = true)
    (hmem : FSEntry.other n ∈ cs)
    (hns : should_exclude cfg false (pyJoin rel n) false = false) :
    XmlNode.file n (pyJoin rel n) ∈
      process_directory_structure cfg rel true cs ∧
    ∀ nm, ¬ (XmlNode.file nm (pyJoin rel n) ∈
      process_files_content cfg rel true cs) := by
  constructor
  · rw [process_directory_structure, if_pos rfl]
    exact mem_structure_items.mpr ⟨FSEntry.other n,
      mem_sortEntries.mpr hmem, mem_structure_item.mpr ⟨hns, rfl⟩⟩
  · intro nm hcontra
    have hreach := ((content_walker_spec cfg rel cs).2 nm
      (pyJoin rel n)).mp hcontra
    obtain ⟨e, he, hkind, t, hdata, hsep⟩ := reach_path_shape cfg hreach hwf
    have hgn : goodName n = true := wfList_mem hwf hmem
    have hge : goodName (entryName e) = true :=
      wfEntry_name (wfList_mem hwf he)
    have heq : n.data ++ ([] : List Char) = (entryName e).data ++ t := by
      apply @List.append_cancel_left _ (relPre rel)
      rw [List.append_nil, ← pyJoin_data, hdata]
    have hname : n = entryName e :=
      append_names_inj hgn hge (Or.inl rfl) hsep heq
    have hnodup := wfList_nodup hwf
    have heq2 : e = FSEntry.other n :=
      List.inj_on_of_nodup_map hnodup he hmem hname.symm
    rcases hkind with ⟨d, hk⟩ | ⟨cs', hk⟩ <;>
      (rw [heq2] at hk; exact FSEntry.noConfusion hk)

theorem other_entry_structure_only_witness :
    wfList [FSEntry.other "lnk"] = true ∧
    (FSEntry.other "lnk" ∈ [FSEntry.other "lnk"]) ∧
    should_exclude default_config false (pyJoin "" "lnk") false = false ∧
    (XmlNode.file "lnk" (pyJoin "" "lnk") ∈
      process_directory_structure default_config "" true
        [FSEntry.other "lnk"] ∧
     ∀ nm, ¬ (XmlNode.file nm (pyJoin "" "lnk") ∈
      process_files_content default_config "" true [FSEntry.other "lnk"])) :=
  ⟨rfl, List.mem_cons_self _ _, rfl,
   other_entry_structure_only default_config "" [FSEntry.other "lnk"] "lnk"
     rfl (List.mem_cons_self _ _) rfl⟩

end ProjectToXml
